import Mathlib

/-!
Verification development for the zeck-cli module resolver and conditional
instruction execution engine.

The TypeScript sources are shallowly embedded:
* file contents are `String` / `List Char`;
* the filesystem is an association list from paths to file states
  (a state is either readable content or an unreadable entry, the latter
  modelling a file whose read throws);
* fallible operations return `Except ZError _`, where the `ZError`
  constructor (`validation` / `io`) records the throw site per the error
  taxonomy of the design document;
* JavaScript truthiness on optional strings (`!s`, `s || d`) is embedded
  by `jsFalsyStr` / `jsOr` (both `undefined` and `""` are falsy);
* the ambient clock (`Date.now()`) is an explicit `now : Int` parameter;
* console output (`Logger`) is an external collaborator with no observable
  effect on the modelled state and is elided.
-/

namespace Zeck

/-! ### Text helpers (List Char embeddings of the JS string operations) -/

/-- Substring test, the embedding of JavaScript `String.prototype.includes`:
the pattern occurs somewhere in `s` (the empty pattern always occurs). -/
def containsSub (pat : List Char) : List Char → Bool
  | [] => pat.isEmpty
  | c :: rest => pat.isPrefixOf (c :: rest) || containsSub pat rest

/-- Split on a separator character, the embedding of JS `split(sep)` for a
one-character separator: `splitOnChar sep "" = [""]`, and a trailing
separator yields a trailing empty segment. -/
def splitOnChar (sep : Char) : List Char → List (List Char)
  | [] => [[]]
  | c :: rest =>
    match splitOnChar sep rest with
    | [] => [[c]]
    | h :: t => if c = sep then [] :: h :: t else (c :: h) :: t

/-- Join segments with a separator, the embedding of JS `Array.prototype.join`. -/
def joinWith (sep : List Char) : List (List Char) → List Char
  | [] => []
  | [x] => x
  | x :: y :: rest => x ++ sep ++ joinWith sep (y :: rest)

/-- Insert an element at an index, the embedding of `splice(i, 0, a)`;
an index past the end appends at the end, as `splice` does. -/
def insertAt (n : Nat) (a : α) (l : List α) : List α :=
  match n, l with
  | 0, l => a :: l
  | _ + 1, [] => [a]
  | n + 1, x :: xs => x :: insertAt n a xs

/-- Whitespace trim on both ends, the embedding of JS `trim()`. -/
def trimChars (s : List Char) : List Char :=
  ((s.dropWhile Char.isWhitespace).reverse.dropWhile Char.isWhitespace).reverse

/-- Number of non-overlapping left-to-right occurrences of a nonempty
pattern (0 when the pattern is empty); this is
`s.split(pat).length - 1` for nonempty `pat`. -/
def countOcc (pat : List Char) (s : List Char) : Nat :=
  match s with
  | [] => 0
  | c :: rest =>
    if h : pat ≠ [] ∧ pat.isPrefixOf (c :: rest) then
      1 + countOcc pat (List.drop pat.length (c :: rest))
    else
      countOcc pat rest
termination_by s.length
decreasing_by
  · simp only [List.length_drop]
    have : pat.length ≠ 0 := fun hn => h.1 (List.length_eq_zero.mp hn)
    simp only [List.length_cons]
    omega
  · simp only [List.length_cons]
    omega

/-- The value of JS `s.split(pat).length - 1` as an integer, covering the
empty-pattern edge cases (`"".split("")` is `[]`, so the count is `-1`;
a nonempty string split on `""` yields one segment per character). -/
def splitCountInt (pat : List Char) (s : List Char) : Int :=
  if pat = [] then (if s = [] then (0 : Int) else (s.length : Int)) - 1
  else (countOcc pat s : Int)

/-- Replace every non-overlapping occurrence of a nonempty pattern,
the embedding of JS `content.split(pattern).join(replacement)` for a
nonempty pattern. -/
def replaceAllSub (pat rep : List Char) (s : List Char) : List Char :=
  match s with
  | [] => []
  | c :: rest =>
    if h : pat ≠ [] ∧ pat.isPrefixOf (c :: rest) then
      rep ++ replaceAllSub pat rep (List.drop pat.length (c :: rest))
    else
      c :: replaceAllSub pat rep rest
termination_by s.length
decreasing_by
  · simp only [List.length_drop]
    have : pat.length ≠ 0 := fun hn => h.1 (List.length_eq_zero.mp hn)
    simp only [List.length_cons]
    omega
  · simp only [List.length_cons]
    omega

/-- Full embedding of `content.split(pattern).join(replacement)`: for the
empty pattern JS splits into single characters, so the replacement is
interleaved between them. -/
def replaceContentChars (pat rep s : List Char) : List Char :=
  if pat = [] then joinWith rep (s.map (fun c => [c]))
  else replaceAllSub pat rep s

/-! ### JS truthiness on optional strings -/

/-- `jsFalsyStr o` is the truth value of JS `!o` for an optional string:
true exactly when the field is absent or the empty string. -/
def jsFalsyStr : Option String → Bool
  | none => true
  | some s => decide (s = "")

/-- `jsOr a b` is JS `a || b` for an optional string `a`: `b` when `a`
is absent or empty, otherwise the string itself. -/
def jsOr (a : Option String) (b : String) : String :=
  match a with
  | none => b
  | some s => if s = "" then b else s

/-! ### Module resolver data model (src/lib/commands/use.ts) -/

/-- A template module record. Optional `includes` / `excludes` arrays are
embedded as lists (an absent array and an empty array are
indistinguishable to the resolver: `if (module.excludes)` guards only a
`forEach`). Modules are compared structurally, matching the reference
identity of the source where each catalog object is materialised once. -/
structure Module where
  name : String
  description : String
  path : String
  includes : List String := []
  excludes : List String := []
  priority : Option Int := none
deriving DecidableEq

/-- The name-keyed module map `new Map(allModules.map(m => [m.name, m]))`:
on duplicate names the later catalog entry wins, as for a JS `Map`. -/
def lookupModule (catalog : List Module) (name : String) : Option Module :=
  catalog.foldl (fun acc m => if m.name = name then some m else acc) none

/-- One activation of the recursive `addIncludes` closure of
`UseCommand.addIncludedModules`, processing a list of include names
against the accumulated `final` set (kept as an insertion-ordered
duplicate-free list, the embedding of the JS `Set`). The JS recursion is
guarded by membership in the growing set; `fuel` bounds the recursion
depth and is consumed once per newly added module, so any
`fuel > |catalog ∖ final|` behaves like the unbounded JS recursion. -/
def addIncludesAux (catalog : List Module) : Nat → List Module → List String → List Module
  | 0, final, _ => final
  | _ + 1, final, [] => final
  | fuel + 1, final, name :: rest =>
    match lookupModule catalog name with
    | none => addIncludesAux catalog (fuel + 1) final rest
    | some inc =>
      if inc ∈ final then
        addIncludesAux catalog (fuel + 1) final rest
      else
        addIncludesAux catalog (fuel + 1)
          (addIncludesAux catalog fuel (final ++ [inc]) inc.includes) rest

/-- `UseCommand.addIncludedModules`: seed the final set with the selected
modules (JS `new Set(selectedModules)`, embedded as an order-preserving
dedup), then run `addIncludes` over every selected module. The fuel
`catalog.length + 1` strictly exceeds every reachable `|catalog ∖ final|`,
so the bounded recursion coincides with the JS visited-set recursion. -/
def addIncludedModules (selectedModules : List Module) (allModules : List Module) : List Module :=
  let initial := selectedModules.foldl (fun acc m => if m ∈ acc then acc else acc ++ [m]) []
  selectedModules.foldl
    (fun final m => addIncludesAux allModules (allModules.length + 1) final m.includes)
    initial

/-- Closure property of a module collection under the include relation,
resolved through the name-keyed catalog map exactly as the code resolves
include names. -/
def IncludeClosed (catalog : List Module) (S : Module → Prop) : Prop :=
  ∀ m, S m → ∀ name ∈ m.includes, ∀ inc, lookupModule catalog name = some inc → S inc

/-- One module's include names are all resolved into the collection `R`:
the per-module slice of `IncludeClosed`. -/
def ProcessedAt (catalog : List Module) (R : List Module) (x : Module) : Prop :=
  ∀ nm ∈ x.includes, ∀ inc, lookupModule catalog nm = some inc → inc ∈ R

/-- Non-membership test used to count the catalog modules not yet in the
accumulated set (the recursion measure of the include expansion). -/
def notMem (coll : List Module) (c : Module) : Bool := decide (c ∉ coll)

/-- `UseCommand.filterExcludedModules`: collect every name listed in some
member of the set whose name is also carried by a member of the set, then
drop all members carrying a collected name. The JS `Set<string>` of
excluded names is embedded as an order-preserving duplicate-free list. -/
def collectExcludedNames (moduleNames : List String) (selectedModules : List Module) :
    List String :=
  selectedModules.foldl
    (fun acc m => m.excludes.foldl
      (fun acc2 ex =>
        if ex ∈ moduleNames then (if ex ∈ acc2 then acc2 else acc2 ++ [ex]) else acc2)
      acc)
    []

def filterExcludedModules (selectedModules : List Module) : List Module :=
  let moduleNames := selectedModules.map (fun m => m.name)
  let excludedModules := collectExcludedNames moduleNames selectedModules
  selectedModules.filter (fun m => decide (m.name ∉ excludedModules))

/-- The effective priority `m.priority ?? 0` used by the sort comparator. -/
def effPriority (m : Module) : Int := m.priority.getD 0

/-- The ordering relation realised by the comparator
`(a, b) => (b.priority ?? 0) - (a.priority ?? 0)`: `a` may precede `b`
exactly when `a`'s effective priority is at least `b`'s. -/
def modPriorityGE (a b : Module) : Prop := effPriority b ≤ effPriority a

instance : DecidableRel modPriorityGE := fun a b => by
  unfold modPriorityGE; infer_instance

instance : IsTotal Module modPriorityGE :=
  ⟨fun a b => Int.le_total (effPriority b) (effPriority a)⟩

instance : IsTrans Module modPriorityGE :=
  ⟨fun _ _ _ hab hbc => le_trans hbc hab⟩

/-- `UseCommand.sortModulesByPriority`: `Array.prototype.sort` with the
descending-priority comparator. ECMAScript `sort` is specified to be
stable, and a stable sort for a fixed total preorder has a unique output,
so the embedding uses insertion sort, which is stable for
`modPriorityGE`. -/
def sortModulesByPriority (modules : List Module) : List Module :=
  List.insertionSort modPriorityGE modules

/-! ### Instruction engine data model (src/lib/utils/modifier.ts) -/

inductive ModifierAction
  | CREATE_FILE | DELETE_FILE | INSERT_IMPORT | INSERT_AFTER
  | INSERT_BEFORE | REPLACE_CONTENT | APPEND_TO_FILE | INSERT_PROP
deriving DecidableEq

inductive ConditionType
  | MODULE_EXISTS | MODULE_NOT_EXISTS | PATTERN_EXISTS | PATTERN_NOT_EXISTS
  | PATTERN_COUNT | FILE_EXISTS | FILE_NOT_EXISTS
deriving DecidableEq

inductive ConditionOperator
  | EQUALS | NOT_EQUALS | GREATER_THAN | LESS_THAN | GREATER_OR_EQUAL | LESS_OR_EQUAL
deriving DecidableEq

inductive LogicOperator
  | AND | OR
deriving DecidableEq

structure Condition where
  type : ConditionType
  value : Option String := none
  operator : Option ConditionOperator := none
  count : Option Int := none
  target : Option String := none
deriving DecidableEq

structure ConditionGroup where
  conditions : List Condition
  logic : Option LogicOperator := none
deriving DecidableEq

structure ModifierInstruction where
  path : String
  action : ModifierAction
  content : Option String := none
  pattern : Option String := none
  replacement : Option String := none
  componentName : Option String := none
  propName : Option String := none
  propValue : Option String := none
  condition : Option ConditionGroup := none
deriving DecidableEq

structure ModifierContext where
  selectedModules : List String
  projectRoot : String
  projectName : Option String := none
  moduleName : Option String := none
  verbose : Option Bool := none
deriving DecidableEq

structure ConditionEvaluationResult where
  passed : Bool
  reason : String
deriving DecidableEq

/-- Errors raised inside instruction processing. The source throws plain
`Error` values; the constructor records the throw-site category from the
design document's taxonomy (required-field checks are `validation`,
file-read failures are `io`), and the message text is kept (quote
punctuation elided). -/
inductive ZError
  | validation (message : String)
  | io (message : String)
deriving DecidableEq

def ZError.message : ZError → String
  | .validation m => m
  | .io m => m

instance {ε α : Type} [DecidableEq ε] [DecidableEq α] : DecidableEq (Except ε α) := fun a b =>
  match a, b with
  | .ok x, .ok y => if h : x = y then .isTrue (by rw [h]) else .isFalse (by simp [h])
  | .error x, .error y => if h : x = y then .isTrue (by rw [h]) else .isFalse (by simp [h])
  | .ok _, .error _ => .isFalse (by simp)
  | .error _, .ok _ => .isFalse (by simp)

/-! ### Filesystem model -/

/-- A file on disk is either readable content or an entry whose read
throws (modelling I/O read errors such as permission failures). -/
inductive FileState
  | readable (content : String)
  | unreadable
deriving DecidableEq

/-- The filesystem: an association list from paths to file states
(first match wins). Directories are not modelled: `ensureDirectory`
always succeeds and is not observable. -/
abbrev FS := List (String × FileState)

def fsLookup (fs : FS) (p : String) : Option FileState :=
  match fs with
  | [] => none
  | (q, st) :: rest => if q = p then some st else fsLookup rest p

/-- `existsSync`. -/
def existsSync (fs : FS) (p : String) : Bool := (fsLookup fs p).isSome

/-- `writeFileSync` (with `ensureDirectory`, a no-op in the model). -/
def fsWrite (fs : FS) (p : String) (c : String) : FS :=
  (p, FileState.readable c) :: fs.filter (fun e => decide (e.1 ≠ p))

/-- `unlinkSync`. -/
def fsRemove (fs : FS) (p : String) : FS :=
  fs.filter (fun e => decide (e.1 ≠ p))

/-- `ModifierResource.readFile`: throws `File not found` when the path
does not exist, or the system read error when the entry is unreadable
(the system-generated message is modelled by the fixed string
`read error`). -/
def readFile (fs : FS) (filePath : String) : Except ZError String :=
  match fsLookup fs filePath with
  | none => .error (.io ("File not found: " ++ filePath))
  | some .unreadable => .error (.io "read error")
  | some (.readable c) => .ok c

/-! ### The eight file-mutation actions -/

/-- `ModifierResource.createFile` (ensureDirectory + writeFile). -/
def createFile (fs : FS) (filePath content : String) : FS :=
  fsWrite fs filePath content

/-- `ModifierResource.deleteFile`: removes the path when present,
no-op otherwise (a filter does both at once). -/
def deleteFile (fs : FS) (filePath : String) : FS :=
  fsRemove fs filePath

/-- The character list of the JS literal `import ` used by the
last-import-line scan. -/
def importMarker : List Char := ['i', 'm', 'p', 'o', 'r', 't', ' ']

/-- Index of the last line whose trimmed text starts with `import `,
as scanned by `ModifierResource.insertImport`. -/
def lastImportLineIdx (lines : List (List Char)) : Option Nat :=
  lines.enum.foldl
    (fun acc pair => if importMarker.isPrefixOf (trimChars pair.2) then some pair.1 else acc)
    none

/-- `ModifierResource.insertImport`. -/
def insertImport (fs : FS) (filePath importStatement : String) : Except ZError FS :=
  (readFile fs filePath).map fun content =>
    let lines := splitOnChar '\n' content.data
    let lines' :=
      match lastImportLineIdx lines with
      | none => importStatement.data :: lines
      | some i => insertAt (i + 1) importStatement.data lines
    fsWrite fs filePath (String.mk (joinWith ['\n'] lines'))

/-- The line-splice loop of `ModifierResource.insertAfter`: a new line is
inserted after the first line containing the pattern; no match leaves the
lines unchanged. -/
def insertAfterLines (pat ins : List Char) : List (List Char) → List (List Char)
  | [] => []
  | l :: rest =>
    if containsSub pat l then l :: ins :: rest else l :: insertAfterLines pat ins rest

/-- The line-splice loop of `ModifierResource.insertBefore`. -/
def insertBeforeLines (pat ins : List Char) : List (List Char) → List (List Char)
  | [] => []
  | l :: rest =>
    if containsSub pat l then ins :: l :: rest else l :: insertBeforeLines pat ins rest

/-- `ModifierResource.insertAfter`. -/
def insertAfter (fs : FS) (filePath pat content : String) : Except ZError FS :=
  (readFile fs filePath).map fun fileContent =>
    let lines := splitOnChar '\n' fileContent.data
    fsWrite fs filePath (String.mk (joinWith ['\n'] (insertAfterLines pat.data content.data lines)))

/-- `ModifierResource.insertBefore`. -/
def insertBefore (fs : FS) (filePath pat content : String) : Except ZError FS :=
  (readFile fs filePath).map fun fileContent =>
    let lines := splitOnChar '\n' fileContent.data
    fsWrite fs filePath (String.mk (joinWith ['\n'] (insertBeforeLines pat.data content.data lines)))

/-- `ModifierResource.replaceContent`: `content.split(pattern).join(replacement)`. -/
def replaceContent (fs : FS) (filePath pat replacement : String) : Except ZError FS :=
  (readFile fs filePath).map fun content =>
    fsWrite fs filePath (String.mk (replaceContentChars pat.data replacement.data content.data))

/-- `ModifierResource.appendToFile`. -/
def appendToFile (fs : FS) (filePath content : String) : Except ZError FS :=
  (readFile fs filePath).map fun currentContent =>
    fsWrite fs filePath (currentContent ++ "\n" ++ content)

/-! ### INSERT_PROP: the tag-rewriting global regex replace

The source builds `new RegExp("<" + componentName + "([^>]*)(\\/)?>", "g")`
and replaces every match. Because `[^>]*` is greedy and the following
group is optional, any `/` before the closing `>` is consumed by
`[^>]*` and the self-closing capture group never captures, so
`hasSelfClosing` is always false in the replacer; the embedding reflects
that. A match at a position is `<`, then the literal component name, then
the maximal run of non-`>` characters, then `>`; the global flag scans
left to right, resuming after each match. -/

/-- The character test `[^>]` of the tag regex. -/
def neGt (ch : Char) : Bool := decide (ch ≠ '>')

/-- The attribute text `propValue ? propName={propValue} : propName`
(an absent or empty `propValue` is falsy). -/
def buildNewProp (propName : List Char) (propValue : Option (List Char)) : List Char :=
  match propValue with
  | none => propName
  | some v => if v = [] then propName else propName ++ '=' :: '{' :: (v ++ ['}'])

/-- The replacer callback of `ModifierResource.insertProp`, rewriting one
matched opening tag (`hasSelfClosing` is always false, see above). -/
def insertPropTagRewrite (componentName props newProp : List Char) : List Char :=
  if trimChars props ≠ [] then
    '<' :: (componentName ++ props ++ ' ' :: (newProp ++ ['>']))
  else
    '<' :: (componentName ++ ' ' :: (newProp ++ ['>']))

/-- The global regex replace of `ModifierResource.insertProp` over the
file content: every match of `<componentName[^>]*>` is rewritten. -/
def insertPropScan (componentName newProp : List Char) (s : List Char) : List Char :=
  match s with
  | [] => []
  | c :: rest =>
    if h : c = '<' ∧ componentName.isPrefixOf rest ∧ '>' ∈ List.drop componentName.length rest then
      let afterName := List.drop componentName.length rest
      let props := afterName.takeWhile neGt
      insertPropTagRewrite componentName props newProp ++
        insertPropScan componentName newProp (List.drop (props.length + 1) afterName)
    else
      c :: insertPropScan componentName newProp rest
termination_by s.length
decreasing_by
  · simp only [List.length_drop, List.length_cons]
    omega
  · simp only [List.length_cons]
    omega

/-- `ModifierResource.insertProp`. -/
def insertProp (fs : FS) (filePath componentName propName : String)
    (propValue : Option String) : Except ZError FS :=
  (readFile fs filePath).map fun content =>
    let newProp := buildNewProp propName.data (propValue.map String.data)
    fsWrite fs filePath (String.mk (insertPropScan componentName.data newProp content.data))

/-! ### Condition evaluation -/

/-- `ModifierResource.getOperatorSymbol`. -/
def getOperatorSymbol : ConditionOperator → String
  | .EQUALS => "=="
  | .NOT_EQUALS => "!="
  | .GREATER_THAN => ">"
  | .LESS_THAN => "<"
  | .GREATER_OR_EQUAL => ">="
  | .LESS_OR_EQUAL => "<="

/-- `ModifierResource.compareCount`; an absent operator defaults to
equality (the caller passes an already-defaulted operator). -/
def compareCount (actualCount : Int) (operator : Option ConditionOperator)
    (expectedCount : Int) : Bool :=
  match operator with
  | none => decide (actualCount = expectedCount)
  | some op =>
    match op with
    | .EQUALS => decide (actualCount = expectedCount)
    | .NOT_EQUALS => decide (actualCount ≠ expectedCount)
    | .GREATER_THAN => decide (actualCount > expectedCount)
    | .LESS_THAN => decide (actualCount < expectedCount)
    | .GREATER_OR_EQUAL => decide (actualCount ≥ expectedCount)
    | .LESS_OR_EQUAL => decide (actualCount ≤ expectedCount)

/-- `ModifierResource.evaluateCondition`. Errors raised while reading a
file for the pattern conditions are caught locally and turned into a
boolean with the error message recorded in the reason; nothing escapes
this function. Quote punctuation of the source's messages is elided. -/
def evaluateCondition (condition : Condition) (context : ModifierContext)
    (targetPath : String) (fs : FS) : ConditionEvaluationResult :=
  match condition.type with
  | .MODULE_EXISTS =>
    let moduleName := jsOr condition.value ""
    let passed := decide (moduleName ∈ context.selectedModules)
    { passed,
      reason := if passed then "Module " ++ moduleName ++ " is selected"
                else "Module " ++ moduleName ++ " is not selected" }
  | .MODULE_NOT_EXISTS =>
    let moduleName := jsOr condition.value ""
    let passed := !decide (moduleName ∈ context.selectedModules)
    { passed,
      reason := if passed then "Module " ++ moduleName ++ " is not selected"
                else "Module " ++ moduleName ++ " is selected" }
  | .PATTERN_EXISTS =>
    let target := jsOr condition.target targetPath
    if existsSync fs target = false then
      { passed := false, reason := "File " ++ target ++ " does not exist" }
    else
      match readFile fs target with
      | .error e =>
        { passed := false, reason := "Error reading file: " ++ e.message }
      | .ok content =>
        let pattern := jsOr condition.value ""
        let passed := containsSub pattern.data content.data
        { passed,
          reason := if passed then "Pattern " ++ pattern ++ " found in file"
                    else "Pattern " ++ pattern ++ " not found in file" }
  | .PATTERN_NOT_EXISTS =>
    let target := jsOr condition.target targetPath
    if existsSync fs target = false then
      { passed := true, reason := "File " ++ target ++ " does not exist" }
    else
      match readFile fs target with
      | .error e =>
        { passed := true,
          reason := "Error reading file (treated as not exists): " ++ e.message }
      | .ok content =>
        let pattern := jsOr condition.value ""
        let passed := !containsSub pattern.data content.data
        { passed,
          reason := if passed then "Pattern " ++ pattern ++ " not found in file"
                    else "Pattern " ++ pattern ++ " found in file" }
  | .PATTERN_COUNT =>
    let target := jsOr condition.target targetPath
    if existsSync fs target = false then
      { passed := false, reason := "File " ++ target ++ " does not exist" }
    else
      match readFile fs target with
      | .error e =>
        { passed := false, reason := "Error reading file: " ++ e.message }
      | .ok content =>
        let pattern := jsOr condition.value ""
        let count := splitCountInt pattern.data content.data
        let expectedCount := condition.count.getD 0
        let operator := condition.operator.getD .EQUALS
        let passed := compareCount count (some operator) expectedCount
        { passed,
          reason := if passed then
              "Pattern count " ++ toString count ++ " " ++ getOperatorSymbol operator
                ++ " " ++ toString expectedCount
            else
              "Pattern count " ++ toString count ++ " does not match "
                ++ getOperatorSymbol operator ++ " " ++ toString expectedCount }
  | .FILE_EXISTS =>
    let target := jsOr condition.target (jsOr condition.value "")
    let passed := existsSync fs target
    { passed,
      reason := if passed then "File " ++ target ++ " exists"
                else "File " ++ target ++ " does not exist" }
  | .FILE_NOT_EXISTS =>
    let target := jsOr condition.target (jsOr condition.value "")
    let passed := !existsSync fs target
    { passed,
      reason := if passed then "File " ++ target ++ " does not exist"
                else "File " ++ target ++ " exists" }

/-- `ModifierResource.evaluateConditionGroup`: every member condition is
evaluated (no short-circuiting) and the verdicts are combined with the
group's logic, `AND` by default. -/
def evaluateConditionGroup (group : ConditionGroup) (context : ModifierContext)
    (targetPath : String) (fs : FS) : Bool × List ConditionEvaluationResult :=
  let logic := group.logic.getD .AND
  let results := group.conditions.map (fun c => evaluateCondition c context targetPath fs)
  let passed :=
    match logic with
    | .AND => results.all (fun r => r.passed)
    | .OR => results.any (fun r => r.passed)
  (passed, results)

structure ShouldResult where
  should : Bool
  results : Option (List ConditionEvaluationResult) := none
  logic : Option LogicOperator := none
deriving DecidableEq

/-- `ModifierResource.shouldExecuteInstruction`. -/
def shouldExecuteInstruction (instruction : ModifierInstruction)
    (context : ModifierContext) (fs : FS) : ShouldResult :=
  match instruction.condition with
  | none => { should := true }
  | some g =>
    let ev := evaluateConditionGroup g context instruction.path fs
    { should := ev.1, results := some ev.2, logic := some (g.logic.getD .AND) }

/-! ### Instruction log store (src/lib/utils/instructionLog.ts) -/

inductive LogStatus
  | success | skipped | failed
deriving DecidableEq

structure InstructionSnapshot where
  path : String
  action : ModifierAction
  content : Option String := none
  pattern : Option String := none
  replacement : Option String := none
  componentName : Option String := none
  propName : Option String := none
  propValue : Option String := none
deriving DecidableEq

structure InstructionLog where
  hash : String
  timestamp : Int
  projectName : String
  moduleName : String
  instructionIndex : Nat
  instruction : InstructionSnapshot
  status : LogStatus
  error : Option String := none
  conditions : Option (List ConditionEvaluationResult) := none
deriving DecidableEq

/-- `InstructionLogResource.generateHash` forms the data string
`projectName_moduleName_instructionIndex_timestamp` and digests it with
md5, keeping 12 hex characters. The digest step is an external crypto
collaborator; the model keeps the data string itself, which determines
the digest. -/
def generateHash (projectName moduleName : String) (instructionIndex : Nat)
    (timestamp : Int) : String :=
  projectName ++ "_" ++ moduleName ++ "_" ++ toString instructionIndex
    ++ "_" ++ toString timestamp

/-- `InstructionLogResource.clearOldLogs`: iterate the stored logs and
unlink every one strictly older than `maxAgeDays` in milliseconds,
returning the number removed (unlinking is assumed to succeed; the
newest-first ordering of `getAllLogs` does not affect the count). -/
def clearOldLogs (logs : List InstructionLog) (now : Int) (maxAgeDays : Int) : Nat :=
  let maxAgeMs := maxAgeDays * 24 * 60 * 60 * 1000
  logs.foldl (fun cleared log => if now - log.timestamp > maxAgeMs then cleared + 1 else cleared) 0

/-- The logs whose files survive `clearOldLogs`: exactly those not
unlinked by the loop. -/
def remainingLogs (logs : List InstructionLog) (now : Int) (maxAgeDays : Int) :
    List InstructionLog :=
  logs.filter (fun log => !decide (now - log.timestamp > maxAgeDays * 24 * 60 * 60 * 1000))

/-! ### The orchestrator (processInstruction / processInstructions) -/

/-- The mutable world visible to the engine: the project filesystem and
the instruction-log store (`InstructionLogResource.saveLog` appends a
log file; the store is the sequence of saved records). -/
structure WorldState where
  fs : FS
  logs : List InstructionLog
deriving DecidableEq

/-- `ModifierResource.saveInstructionLog`: stamp the clock, derive the
hash, snapshot the instruction and persist the record via
`InstructionLogResource.saveLog` before returning the hash. -/
def saveInstructionLog (instruction : ModifierInstruction) (context : ModifierContext)
    (instructionIndex : Nat) (status : LogStatus) (error : Option String)
    (conditionResults : Option (List ConditionEvaluationResult)) (now : Int)
    (st : WorldState) : String × WorldState :=
  let timestamp := now
  let projectName := jsOr context.projectName "unknown"
  let moduleName := jsOr context.moduleName "unknown"
  let hash := generateHash projectName moduleName instructionIndex timestamp
  let log : InstructionLog :=
    { hash, timestamp, projectName, moduleName, instructionIndex,
      instruction :=
        { path := instruction.path, action := instruction.action,
          content := instruction.content, pattern := instruction.pattern,
          replacement := instruction.replacement,
          componentName := instruction.componentName,
          propName := instruction.propName, propValue := instruction.propValue },
      status, error, conditions := conditionResults }
  (hash, { st with logs := st.logs ++ [log] })

/-- The `try`-block switch of `ModifierResource.processInstruction`:
required-field validation (JS truthiness: an absent or empty field is
missing, except `replacement`, which is compared against `undefined`
only) followed by the action's filesystem effect. -/
def runInstructionAction (instruction : ModifierInstruction) (fs : FS) :
    Except ZError FS :=
  match instruction.action with
  | .CREATE_FILE =>
    if jsFalsyStr instruction.content then
      .error (.validation "Content is required for CREATE_FILE action")
    else
      .ok (createFile fs instruction.path (instruction.content.getD ""))
  | .DELETE_FILE =>
    .ok (deleteFile fs instruction.path)
  | .INSERT_IMPORT =>
    if jsFalsyStr instruction.content then
      .error (.validation "Content is required for INSERT_IMPORT action")
    else
      insertImport fs instruction.path (instruction.content.getD "")
  | .INSERT_AFTER =>
    if jsFalsyStr instruction.pattern || jsFalsyStr instruction.content then
      .error (.validation "Pattern and content are required for INSERT_AFTER action")
    else
      insertAfter fs instruction.path (instruction.pattern.getD "") (instruction.content.getD "")
  | .INSERT_BEFORE =>
    if jsFalsyStr instruction.pattern || jsFalsyStr instruction.content then
      .error (.validation "Pattern and content are required for INSERT_BEFORE action")
    else
      insertBefore fs instruction.path (instruction.pattern.getD "") (instruction.content.getD "")
  | .REPLACE_CONTENT =>
    if jsFalsyStr instruction.pattern || instruction.replacement.isNone then
      .error (.validation "Pattern and replacement are required for REPLACE_CONTENT action")
    else
      replaceContent fs instruction.path (instruction.pattern.getD "") (instruction.replacement.getD "")
  | .APPEND_TO_FILE =>
    if jsFalsyStr instruction.content then
      .error (.validation "Content is required for APPEND_TO_FILE action")
    else
      appendToFile fs instruction.path (instruction.content.getD "")
  | .INSERT_PROP =>
    if jsFalsyStr instruction.componentName || jsFalsyStr instruction.propName then
      .error (.validation "ComponentName and propName are required for INSERT_PROP action")
    else
      insertProp fs instruction.path (instruction.componentName.getD "")
        (instruction.propName.getD "") instruction.propValue

/-- `ModifierResource.processInstruction`: evaluate the guard; a failed
guard returns `false` (skipped), otherwise the action runs and the result
is `true` or the raised error. A log record is appended only inside the
`if (verbose)` blocks of the source, one per outcome branch. -/
def processInstruction (instruction : ModifierInstruction) (context : ModifierContext)
    (instructionIndex : Nat) (now : Int) (st : WorldState) :
    Except ZError Bool × WorldState :=
  let verbose := context.verbose.getD false
  let evaluation := shouldExecuteInstruction instruction context st.fs
  if evaluation.should = false then
    if verbose then
      let save := saveInstructionLog instruction context instructionIndex
        .skipped none evaluation.results now st
      (.ok false, save.2)
    else
      (.ok false, st)
  else
    match runInstructionAction instruction st.fs with
    | .ok fs' =>
      let st1 : WorldState := { st with fs := fs' }
      if verbose then
        let save := saveInstructionLog instruction context instructionIndex
          .success none evaluation.results now st1
        (.ok true, save.2)
      else
        (.ok true, st1)
    | .error e =>
      if verbose then
        let save := saveInstructionLog instruction context instructionIndex
          .failed (some e.message) evaluation.results now st
        (.error e, save.2)
      else
        (.error e, st)

structure Summary where
  executed : Nat
  skipped : Nat
deriving DecidableEq

/-- The loop body of `ModifierResource.processInstructions` from loop
index `i`: each instruction is processed in order; `true` tallies
`executed`, `false` tallies `skipped`, and a raised error is caught and
tallied `skipped`. -/
def processInstructionsAux (instructions : List ModifierInstruction)
    (context : ModifierContext) (now : Int) (i : Nat) (st : WorldState) :
    Summary × WorldState :=
  match instructions with
  | [] => ({ executed := 0, skipped := 0 }, st)
  | instruction :: rest =>
    let step := processInstruction instruction context i now st
    let tail := processInstructionsAux rest context now (i + 1) step.2
    match step.1 with
    | .ok true => ({ tail.1 with executed := tail.1.executed + 1 }, tail.2)
    | .ok false => ({ tail.1 with skipped := tail.1.skipped + 1 }, tail.2)
    | .error _ => ({ tail.1 with skipped := tail.1.skipped + 1 }, tail.2)

/-- `ModifierResource.processInstructions`. -/
def processInstructions (instructions : List ModifierInstruction)
    (context : ModifierContext) (now : Int) (st : WorldState) :
    Summary × WorldState :=
  processInstructionsAux instructions context now 0 st

/-! ### Characterization predicates (used to state the claims) -/

/-- Whether the action reads its target file before mutating. -/
def readDependent : ModifierAction → Bool
  | .INSERT_IMPORT | .INSERT_AFTER | .INSERT_BEFORE
  | .REPLACE_CONTENT | .APPEND_TO_FILE | .INSERT_PROP => true
  | .CREATE_FILE | .DELETE_FILE => false

/-- The exact required-field discipline realised by the `try`-block
switch: every required field must be present and non-empty under JS
truthiness, except `replacement`, which must merely be present. -/
def validationOk (instruction : ModifierInstruction) : Bool :=
  match instruction.action with
  | .CREATE_FILE => !jsFalsyStr instruction.content
  | .DELETE_FILE => true
  | .INSERT_IMPORT => !jsFalsyStr instruction.content
  | .INSERT_AFTER => !jsFalsyStr instruction.pattern && !jsFalsyStr instruction.content
  | .INSERT_BEFORE => !jsFalsyStr instruction.pattern && !jsFalsyStr instruction.content
  | .REPLACE_CONTENT => !jsFalsyStr instruction.pattern && instruction.replacement.isSome
  | .APPEND_TO_FILE => !jsFalsyStr instruction.content
  | .INSERT_PROP => !jsFalsyStr instruction.componentName && !jsFalsyStr instruction.propName

/-- The log status recorded for each outcome of `processInstruction`. -/
def outcomeStatus : Except ZError Bool → LogStatus
  | .ok true => .success
  | .ok false => .skipped
  | .error _ => .failed

/-! ### Concrete sample values used by witnesses and counterexamples -/

/-- A module whose `excludes` lists its own name. -/
def selfExcludingModule : Module :=
  { name := "A", description := "a", path := "a.json", excludes := ["A"] }

/-- Module A of a mutually exclusive pair. -/
def mutexA : Module :=
  { name := "A", description := "a", path := "a.json", excludes := ["B"] }

/-- Module B of a mutually exclusive pair. -/
def mutexB : Module :=
  { name := "B", description := "b", path := "b.json", excludes := ["A"] }

/-- A module including `B`, part of a cyclic include pair. -/
def cycleA : Module :=
  { name := "A", description := "a", path := "a.json", includes := ["B"] }

/-- A module including `A`, part of a cyclic include pair. -/
def cycleB : Module :=
  { name := "B", description := "b", path := "b.json", includes := ["A"] }

/-- A minimal context: nothing selected, not verbose. -/
def sampleContext : ModifierContext := { selectedModules := [], projectRoot := "/p" }

/-- The same context with `verbose` set. -/
def verboseContext : ModifierContext :=
  { selectedModules := [], projectRoot := "/p", verbose := some true }

/-- An empty world: no files, no logs. -/
def emptyWorld : WorldState := { fs := [], logs := [] }

/-- A `DELETE_FILE` instruction (no required fields, never fails). -/
def deleteInstruction : ModifierInstruction := { path := "x.txt", action := .DELETE_FILE }

/-- A `CREATE_FILE` instruction whose `content` is present but empty. -/
def emptyContentInstruction : ModifierInstruction :=
  { path := "x.txt", action := .CREATE_FILE, content := some "" }

/-- A `CREATE_FILE` instruction with no `content` at all. -/
def missingContentInstruction : ModifierInstruction :=
  { path := "x.txt", action := .CREATE_FILE }

/-- An `APPEND_TO_FILE` instruction with valid fields, used against a
world where its target does not exist. -/
def appendInstruction : ModifierInstruction :=
  { path := "x.txt", action := .APPEND_TO_FILE, content := some "tail" }

/-- A `PATTERN_EXISTS` condition aimed at the file `f`. -/
def patternExistsCondition : Condition :=
  { type := .PATTERN_EXISTS, value := some "needle", target := some "f" }

/-- A `PATTERN_NOT_EXISTS` condition aimed at the file `f`. -/
def patternNotExistsCondition : Condition :=
  { type := .PATTERN_NOT_EXISTS, value := some "needle", target := some "f" }

/-- A filesystem whose only file `f` exists but cannot be read. -/
def unreadableWorldFs : FS := [("f", .unreadable)]

/-- A stored log record with the given timestamp. -/
def logAt (t : Int) : InstructionLog :=
  { hash := "h", timestamp := t, projectName := "proj", moduleName := "mod",
    instructionIndex := 0,
    instruction := { path := "x.txt", action := .DELETE_FILE },
    status := .success }

/-! ## Theorems -/

/-! ### Shared helper lemmas -/

theorem foldl_count_eq_filter_length {α : Type} (p : α → Bool) (l : List α) :
    ∀ n : Nat, l.foldl (fun c a => if p a then c + 1 else c) n = n + (l.filter p).length := by
  induction l with
  | nil => intro n; simp
  | cons a t ih =>
    intro n
    by_cases h : p a
    · simp [List.foldl_cons, h, ih, List.filter_cons]
      omega
    · simp [List.foldl_cons, h, ih, List.filter_cons]

/-- C9: `clearOldLogs(maxAgeDays)` removes exactly the logs strictly
older than `maxAgeDays` in milliseconds and returns their number; every
log at or under the age limit is retained; in particular pruning at 30
days with one log 31 days old and one 10 days old removes exactly the
older one and returns 1. -/
theorem c9_clearOldLogs_prunes_exactly (logs : List InstructionLog) (now maxAgeDays : Int) :
    clearOldLogs logs now maxAgeDays
      = (logs.filter (fun log =>
          decide (now - log.timestamp > maxAgeDays * 24 * 60 * 60 * 1000))).length
    ∧ (∀ log ∈ logs,
        log ∈ remainingLogs logs now maxAgeDays
          ↔ now - log.timestamp ≤ maxAgeDays * 24 * 60 * 60 * 1000)
    ∧ (∀ oldLog newLog : InstructionLog,
        oldLog.timestamp = now - 31 * 86400000 →
        newLog.timestamp = now - 10 * 86400000 →
        clearOldLogs [oldLog, newLog] now 30 = 1
          ∧ remainingLogs [oldLog, newLog] now 30 = [newLog]) := by
  refine ⟨?_, ?_, ?_⟩
  · simpa [clearOldLogs] using
      foldl_count_eq_filter_length
        (fun log => decide (now - log.timestamp > maxAgeDays * 24 * 60 * 60 * 1000)) logs 0
  · intro log hmem
    simp only [remainingLogs, List.mem_filter, hmem, true_and, Bool.not_eq_true',
      decide_eq_false_iff_not, not_lt]
  · intro oldLog newLog hOld hNew
    refine ⟨?_, ?_⟩
    · simp only [clearOldLogs, List.foldl_cons, List.foldl_nil, hOld, hNew]
      norm_num
    · simp only [remainingLogs, List.filter, hOld, hNew]
      norm_num

/-- Witness for C9 at a concrete store: two logs, 31 days and 10 days
old at clock 0, pruned with `maxAgeDays = 30`. -/
theorem c9_clearOldLogs_prunes_exactly_witness :
    clearOldLogs [logAt (-2678400000), logAt (-864000000)] 0 30 = 1
      ∧ remainingLogs [logAt (-2678400000), logAt (-864000000)] 0 30 = [logAt (-864000000)] :=
  (c9_clearOldLogs_prunes_exactly [logAt (-2678400000), logAt (-864000000)] 0 30).2.2
    (logAt (-2678400000)) (logAt (-864000000)) (by decide) (by decide)

/-- C10: `processInstructions` tallies every instruction exactly once:
the returned summary satisfies `executed + skipped = instructions.length`
(an instruction that raises is caught and counted in `skipped`; the
summary has no separate failure count). -/
theorem c10_summary_totals (instructions : List ModifierInstruction)
    (context : ModifierContext) (now : Int) (st : WorldState) :
    (processInstructions instructions context now st).1.executed
      + (processInstructions instructions context now st).1.skipped
      = instructions.length := by
  suffices h : ∀ (l : List ModifierInstruction) (i : Nat) (w : WorldState),
      (processInstructionsAux l context now i w).1.executed
        + (processInstructionsAux l context now i w).1.skipped = l.length by
    exact h instructions 0 st
  intro l
  induction l with
  | nil => intro i w; simp [processInstructionsAux]
  | cons a t ih =>
    intro i w
    have ht := ih (i + 1) (processInstruction a context i now w).2
    simp only [processInstructionsAux]
    cases hr : (processInstruction a context i now w).1 with
    | error e => simp only [List.length_cons]; omega
    | ok b => cases b <;> (simp only [List.length_cons]; omega)

/-- C4: `processInstructions` is best-effort. First conjunct: processing a
concatenation processes the suffix from the state the prefix left behind,
whatever happened inside the prefix (summaries add up, so no failure in
the prefix aborts the suffix). Second conjunct: an instruction whose
processing raises is caught, tallied as one `skipped`, and the remaining
batch is processed from the state the failing instruction left. -/
theorem c4_processInstructions_never_aborts (context : ModifierContext) (now : Int) :
    (∀ (xs ys : List ModifierInstruction) (i : Nat) (st : WorldState),
      (processInstructionsAux (xs ++ ys) context now i st).1.executed
          = (processInstructionsAux xs context now i st).1.executed
            + (processInstructionsAux ys context now (i + xs.length)
                (processInstructionsAux xs context now i st).2).1.executed
        ∧ (processInstructionsAux (xs ++ ys) context now i st).1.skipped
          = (processInstructionsAux xs context now i st).1.skipped
            + (processInstructionsAux ys context now (i + xs.length)
                (processInstructionsAux xs context now i st).2).1.skipped
        ∧ (processInstructionsAux (xs ++ ys) context now i st).2
          = (processInstructionsAux ys context now (i + xs.length)
              (processInstructionsAux xs context now i st).2).2)
    ∧ (∀ (instruction : ModifierInstruction) (rest : List ModifierInstruction)
        (i : Nat) (st : WorldState) (e : ZError),
        (processInstruction instruction context i now st).1 = .error e →
        (processInstructionsAux (instruction :: rest) context now i st).1.executed
            = (processInstructionsAux rest context now (i + 1)
                (processInstruction instruction context i now st).2).1.executed
          ∧ (processInstructionsAux (instruction :: rest) context now i st).1.skipped
            = (processInstructionsAux rest context now (i + 1)
                (processInstruction instruction context i now st).2).1.skipped + 1
          ∧ (processInstructionsAux (instruction :: rest) context now i st).2
            = (processInstructionsAux rest context now (i + 1)
                (processInstruction instruction context i now st).2).2) := by
  constructor
  · intro xs
    induction xs with
    | nil => intro ys i st; simp [processInstructionsAux]
    | cons a t ih =>
      intro ys i st
      obtain ⟨ih1, ih2, ih3⟩ := ih ys (i + 1) (processInstruction a context i now st).2
      have hidx : i + 1 + t.length = i + (t.length + 1) := by omega
      rw [hidx] at ih1 ih2 ih3
      simp only [List.cons_append, processInstructionsAux, List.length_cons, List.append_eq] at *
      cases hr : (processInstruction a context i now st).1 with
      | error e => dsimp only; exact ⟨by omega, by omega, ih3⟩
      | ok b =>
        cases b
        · dsimp only; exact ⟨by omega, by omega, ih3⟩
        · dsimp only; exact ⟨by omega, by omega, ih3⟩
  · intro instruction rest i st e he
    simp [processInstructionsAux, he]

/-- Witness for C4: a `CREATE_FILE` instruction with no content raises a
validation error, is tallied as skipped, and an empty remaining batch is
still processed. -/
theorem c4_processInstructions_never_aborts_witness :
    (processInstructionsAux [missingContentInstruction] sampleContext 0 0 emptyWorld).1.executed
        = (processInstructionsAux [] sampleContext 0 1
            (processInstruction missingContentInstruction sampleContext 0 0 emptyWorld).2).1.executed
      ∧ (processInstructionsAux [missingContentInstruction] sampleContext 0 0 emptyWorld).1.skipped
        = (processInstructionsAux [] sampleContext 0 1
            (processInstruction missingContentInstruction sampleContext 0 0 emptyWorld).2).1.skipped + 1
      ∧ (processInstructionsAux [missingContentInstruction] sampleContext 0 0 emptyWorld).2
        = (processInstructionsAux [] sampleContext 0 1
            (processInstruction missingContentInstruction sampleContext 0 0 emptyWorld).2).2 :=
  (c4_processInstructions_never_aborts sampleContext 0).2 missingContentInstruction [] 0 emptyWorld
    (.validation "Content is required for CREATE_FILE action") (by decide)

/-- C1 (corrected): with `verbose` set in the context, every call to
`processInstruction` appends exactly one log record, carrying the
instruction's index, the clock stamp, and the status matching the
outcome, before the call returns; with `verbose` unset or false, no log
record is persisted at all. -/
theorem c1_log_persistence_gated_by_verbose (instruction : ModifierInstruction)
    (context : ModifierContext) (i : Nat) (now : Int) (st : WorldState) :
    (context.verbose = some true →
      ∃ rec : InstructionLog,
        (processInstruction instruction context i now st).2.logs = st.logs ++ [rec]
          ∧ rec.instructionIndex = i
          ∧ rec.timestamp = now
          ∧ rec.status = outcomeStatus (processInstruction instruction context i now st).1)
    ∧ (context.verbose.getD false = false →
        (processInstruction instruction context i now st).2.logs = st.logs) := by
  constructor
  · intro hv
    have hgd : context.verbose.getD false = true := by rw [hv]; rfl
    simp only [processInstruction, hgd, if_true]
    cases hss : (shouldExecuteInstruction instruction context st.fs).should with
    | false =>
      simp only [saveInstructionLog, outcomeStatus]
      exact ⟨_, rfl, rfl, rfl, rfl⟩
    | true =>
      simp only [Bool.true_eq_false, if_false]
      cases har : runInstructionAction instruction st.fs with
      | ok fs' =>
        simp only [saveInstructionLog, outcomeStatus]
        exact ⟨_, rfl, rfl, rfl, rfl⟩
      | error e =>
        simp only [saveInstructionLog, outcomeStatus]
        exact ⟨_, rfl, rfl, rfl, rfl⟩
  · intro hv
    simp only [processInstruction, hv, if_false]
    cases hss : (shouldExecuteInstruction instruction context st.fs).should with
    | false => rfl
    | true =>
      simp only [Bool.true_eq_false, if_false]
      cases har : runInstructionAction instruction st.fs with
      | ok fs' => rfl
      | error e => rfl

/-- Witness for C1: with `verbose := some true`, processing a
`DELETE_FILE` instruction appends exactly one success log. -/
theorem c1_log_persistence_gated_by_verbose_witness :
    ∃ rec : InstructionLog,
      (processInstruction deleteInstruction verboseContext 0 5 emptyWorld).2.logs = [] ++ [rec]
        ∧ rec.instructionIndex = 0
        ∧ rec.timestamp = 5
        ∧ rec.status
            = outcomeStatus (processInstruction deleteInstruction verboseContext 0 5 emptyWorld).1 :=
  (c1_log_persistence_gated_by_verbose deleteInstruction verboseContext 0 5 emptyWorld).1 rfl

/-- Counterexample to C1 as stated: with `verbose` unset, an instruction
is fully processed (here it executes successfully) yet no `InstructionLog`
record is persisted. -/
theorem c1_counterexample_no_log_without_verbose :
    (processInstruction deleteInstruction sampleContext 0 0 emptyWorld).1 = .ok true
      ∧ (processInstruction deleteInstruction sampleContext 0 0 emptyWorld).2.logs = [] := by
  constructor
  · decide
  · decide

theorem readFile_error_io (fs : FS) (p : String) (e : ZError)
    (h : readFile fs p = .error e) : ∃ m, e = ZError.io m := by
  unfold readFile at h
  cases hl : fsLookup fs p with
  | none => rw [hl] at h; exact ⟨_, (Except.error.injEq _ _).mp h.symm⟩
  | some fst =>
    cases fst with
    | readable c => rw [hl] at h; cases h
    | unreadable => rw [hl] at h; exact ⟨_, (Except.error.injEq _ _).mp h.symm⟩

theorem processInstruction_fst_of_should (instruction : ModifierInstruction)
    (context : ModifierContext) (i : Nat) (now : Int) (st : WorldState)
    (hs : (shouldExecuteInstruction instruction context st.fs).should = true) :
    (processInstruction instruction context i now st).1
      = match runInstructionAction instruction st.fs with
        | .ok _ => .ok true
        | .error e => .error e := by
  simp only [processInstruction, hs, Bool.true_eq_false, if_false]
  cases har : runInstructionAction instruction st.fs with
  | ok fs' => by_cases hv : context.verbose.getD false <;> simp [hv]
  | error e => by_cases hv : context.verbose.getD false <;> simp [hv]

theorem except_map_eq_error {ε α β : Type} (f : α → β) (x : Except ε α) (e : ε) :
    x.map f = .error e ↔ x = .error e := by
  cases x <;> simp [Except.map]

theorem readFile_not_validation (fs : FS) (p : String) (msg : String) :
    readFile fs p ≠ .error (.validation msg) := by
  intro h
  obtain ⟨m, hm⟩ := readFile_error_io fs p _ h
  cases hm

theorem runInstructionAction_validation_iff (instruction : ModifierInstruction) (fs : FS) :
    (∃ msg, runInstructionAction instruction fs = .error (.validation msg))
      ↔ validationOk instruction = false := by
  cases ha : instruction.action <;>
    simp only [runInstructionAction, validationOk, ha]
  case CREATE_FILE =>
    cases hc : jsFalsyStr instruction.content <;> simp [hc]
  case DELETE_FILE => simp
  case INSERT_IMPORT =>
    cases hc : jsFalsyStr instruction.content <;>
      simp [hc, insertImport, except_map_eq_error, readFile_not_validation]
  case INSERT_AFTER =>
    cases hp : jsFalsyStr instruction.pattern <;>
      cases hc : jsFalsyStr instruction.content <;>
      simp [hp, hc, insertAfter, except_map_eq_error, readFile_not_validation]
  case INSERT_BEFORE =>
    cases hp : jsFalsyStr instruction.pattern <;>
      cases hc : jsFalsyStr instruction.content <;>
      simp [hp, hc, insertBefore, except_map_eq_error, readFile_not_validation]
  case REPLACE_CONTENT =>
    cases hp : jsFalsyStr instruction.pattern <;>
      cases hc : instruction.replacement.isNone <;>
      simp [hp, hc, replaceContent, except_map_eq_error, readFile_not_validation]
  case APPEND_TO_FILE =>
    cases hc : jsFalsyStr instruction.content <;>
      simp [hc, appendToFile, except_map_eq_error, readFile_not_validation]
  case INSERT_PROP =>
    cases hp : jsFalsyStr instruction.componentName <;>
      cases hc : jsFalsyStr instruction.propName <;>
      simp [hp, hc, insertProp, except_map_eq_error, readFile_not_validation]

theorem runInstructionAction_missing_file (instruction : ModifierInstruction) (fs : FS)
    (hok : validationOk instruction = true) (hrd : readDependent instruction.action = true)
    (habs : fsLookup fs instruction.path = none) :
    runInstructionAction instruction fs
      = .error (.io ("File not found: " ++ instruction.path)) := by
  have hrf : readFile fs instruction.path
      = .error (.io ("File not found: " ++ instruction.path)) := by
    simp [readFile, habs]
  cases ha : instruction.action <;>
    simp only [runInstructionAction, validationOk, readDependent, ha] at hok hrd ⊢
  case CREATE_FILE => cases hrd
  case DELETE_FILE => cases hrd
  case INSERT_IMPORT =>
    simp only [Bool.not_eq_true'] at hok
    simp [hok, insertImport, hrf, Except.map]
  case INSERT_AFTER =>
    simp only [Bool.and_eq_true, Bool.not_eq_true', Option.isSome_iff_ne_none] at hok
    simp [hok.1, hok.2, insertAfter, hrf, Except.map]
  case INSERT_BEFORE =>
    simp only [Bool.and_eq_true, Bool.not_eq_true', Option.isSome_iff_ne_none] at hok
    simp [hok.1, hok.2, insertBefore, hrf, Except.map]
  case REPLACE_CONTENT =>
    simp only [Bool.and_eq_true, Bool.not_eq_true', Option.isSome_iff_ne_none] at hok
    simp [hok.1, hok.2, replaceContent, hrf, Except.map]
  case APPEND_TO_FILE =>
    simp only [Bool.not_eq_true'] at hok
    simp [hok, appendToFile, hrf, Except.map]
  case INSERT_PROP =>
    simp only [Bool.and_eq_true, Bool.not_eq_true', Option.isSome_iff_ne_none] at hok
    simp [hok.1, hok.2, insertProp, hrf, Except.map]

/-- C6 (corrected): for an instruction whose guard passes (or is absent),
`processInstruction` raises a validation error exactly when a required
field for the chosen action is absent or the empty string (JS truthiness;
for `REPLACE_CONTENT` the `replacement` may be empty but must be
present), and it raises the file-not-found I/O error when a
read-dependent action targets a nonexistent file. -/
theorem c6_validation_and_io_characterization (instruction : ModifierInstruction)
    (context : ModifierContext) (i : Nat) (now : Int) (st : WorldState)
    (hs : (shouldExecuteInstruction instruction context st.fs).should = true) :
    ((∃ msg, (processInstruction instruction context i now st).1
        = .error (.validation msg))
      ↔ validationOk instruction = false)
    ∧ (validationOk instruction = true → readDependent instruction.action = true →
        fsLookup st.fs instruction.path = none →
        (processInstruction instruction context i now st).1
          = .error (.io ("File not found: " ++ instruction.path))) := by
  have hfst := processInstruction_fst_of_should instruction context i now st hs
  constructor
  · rw [hfst]
    cases har : runInstructionAction instruction st.fs with
    | ok f =>
      dsimp only
      constructor
      · rintro ⟨msg, h⟩; cases h
      · intro hbad
        obtain ⟨msg, hm⟩ := (runInstructionAction_validation_iff instruction st.fs).mpr hbad
        rw [har] at hm
        cases hm
    | error e =>
      dsimp only
      constructor
      · rintro ⟨msg, h⟩
        have he : e = .validation msg := by injection h
        exact (runInstructionAction_validation_iff instruction st.fs).mp
          ⟨msg, by rw [har, he]⟩
      · intro hbad
        obtain ⟨msg, hm⟩ := (runInstructionAction_validation_iff instruction st.fs).mpr hbad
        rw [har] at hm
        have he : e = .validation msg := by injection hm
        exact ⟨msg, by rw [he]⟩
  · intro hok hrd habs
    rw [hfst, runInstructionAction_missing_file instruction st.fs hok hrd habs]

/-- Witness for C6: an `APPEND_TO_FILE` instruction with valid fields
against a world without its target file raises the file-not-found I/O
error. -/
theorem c6_validation_and_io_characterization_witness :
    (processInstruction appendInstruction sampleContext 0 0 emptyWorld).1
      = .error (.io ("File not found: " ++ appendInstruction.path)) :=
  (c6_validation_and_io_characterization appendInstruction sampleContext 0 0 emptyWorld
    (by decide)).2 (by decide) (by decide) rfl

/-- Counterexample to C6 as stated: a `CREATE_FILE` instruction whose
`content` is present but the empty string still fails validation,
because the source tests required fields with JS truthiness (`!content`),
under which the empty string is missing. -/
theorem c6_counterexample_empty_content_fails :
    (processInstruction emptyContentInstruction sampleContext 0 0 emptyWorld).1
      = .error (.validation "Content is required for CREATE_FILE action") := by
  decide

/-- C7: for the pattern conditions, a missing target file makes
`PATTERN_EXISTS` fail and `PATTERN_NOT_EXISTS` pass; a target that exists
but cannot be read makes `PATTERN_EXISTS` fail and `PATTERN_NOT_EXISTS`
pass with the read error recorded in the reason. The evaluator returns a
plain verdict in every case, so the error never escapes to the caller. -/
theorem c7_pattern_condition_failure_semantics (condition : Condition)
    (context : ModifierContext) (targetPath : String) (fs : FS) :
    (condition.type = .PATTERN_EXISTS →
      fsLookup fs (jsOr condition.target targetPath) = none →
      evaluateCondition condition context targetPath fs
        = { passed := false,
            reason := "File " ++ jsOr condition.target targetPath ++ " does not exist" })
    ∧ (condition.type = .PATTERN_NOT_EXISTS →
      fsLookup fs (jsOr condition.target targetPath) = none →
      evaluateCondition condition context targetPath fs
        = { passed := true,
            reason := "File " ++ jsOr condition.target targetPath ++ " does not exist" })
    ∧ (condition.type = .PATTERN_EXISTS →
      fsLookup fs (jsOr condition.target targetPath) = some .unreadable →
      evaluateCondition condition context targetPath fs
        = { passed := false, reason := "Error reading file: read error" })
    ∧ (condition.type = .PATTERN_NOT_EXISTS →
      fsLookup fs (jsOr condition.target targetPath) = some .unreadable →
      evaluateCondition condition context targetPath fs
        = { passed := true,
            reason := "Error reading file (treated as not exists): read error" }) := by
  refine ⟨?_, ?_, ?_, ?_⟩ <;> intro hty habs <;>
    simp [evaluateCondition, hty, existsSync, readFile, habs, ZError.message]

/-- Witness for C7 at a concrete condition and filesystem: the only file
exists but is unreadable, so `PATTERN_NOT_EXISTS` passes with the read
error recorded in the reason. -/
theorem c7_pattern_condition_failure_semantics_witness :
    evaluateCondition patternNotExistsCondition sampleContext "d" unreadableWorldFs
      = { passed := true,
          reason := "Error reading file (treated as not exists): read error" } :=
  (c7_pattern_condition_failure_semantics patternNotExistsCondition sampleContext "d"
    unreadableWorldFs).2.2.2 rfl rfl

theorem mem_if_push {α : Type} [DecidableEq α] (a : List α) (x y : α) :
    (y ∈ (if x ∈ a then a else a ++ [x])) ↔ y ∈ a ∨ y = x := by
  by_cases hx : x ∈ a
  · simp only [if_pos hx]
    constructor
    · exact fun h => Or.inl h
    · rintro (h | rfl)
      · exact h
      · exact hx
  · simp [if_neg hx]

theorem mem_collect_inner (names : List String) (excl : List String) :
    ∀ (acc : List String) (y : String),
      (y ∈ excl.foldl
        (fun acc2 ex =>
          if ex ∈ names then (if ex ∈ acc2 then acc2 else acc2 ++ [ex]) else acc2) acc)
      ↔ y ∈ acc ∨ (y ∈ names ∧ y ∈ excl) := by
  induction excl with
  | nil => intro acc y; simp
  | cons ex rest ih =>
    intro acc y
    by_cases hn : ex ∈ names
    · simp only [List.foldl_cons, if_pos hn]
      rw [ih, mem_if_push]
      simp only [List.mem_cons]
      constructor
      · rintro ((h | rfl) | ⟨h1, h2⟩)
        · exact Or.inl h
        · exact Or.inr ⟨hn, Or.inl rfl⟩
        · exact Or.inr ⟨h1, Or.inr h2⟩
      · rintro (h | ⟨h1, (rfl | h2)⟩)
        · exact Or.inl (Or.inl h)
        · exact Or.inl (Or.inr rfl)
        · exact Or.inr ⟨h1, h2⟩
    · simp only [List.foldl_cons, if_neg hn]
      rw [ih]
      simp only [List.mem_cons]
      constructor
      · rintro (h | ⟨h1, h2⟩)
        · exact Or.inl h
        · exact Or.inr ⟨h1, Or.inr h2⟩
      · rintro (h | ⟨h1, (rfl | h2)⟩)
        · exact Or.inl h
        · exact absurd h1 hn
        · exact Or.inr ⟨h1, h2⟩

theorem mem_collectExcludedNames (names : List String) (mods : List Module) :
    ∀ y, y ∈ collectExcludedNames names mods
      ↔ y ∈ names ∧ ∃ m ∈ mods, y ∈ m.excludes := by
  suffices h : ∀ (acc : List String) (y : String),
      (y ∈ mods.foldl
        (fun acc m => m.excludes.foldl
          (fun acc2 ex =>
            if ex ∈ names then (if ex ∈ acc2 then acc2 else acc2 ++ [ex]) else acc2) acc)
        acc)
      ↔ y ∈ acc ∨ (y ∈ names ∧ ∃ m ∈ mods, y ∈ m.excludes) by
    intro y
    have := h [] y
    simpa [collectExcludedNames] using this
  induction mods with
  | nil => intro acc y; simp
  | cons m rest ih =>
    intro acc y
    simp only [List.foldl_cons]
    rw [ih, mem_collect_inner]
    simp only [List.mem_cons]
    constructor
    · rintro ((h | ⟨h1, h2⟩) | ⟨h1, mm, hmm, hy⟩)
      · exact Or.inl h
      · exact Or.inr ⟨h1, m, Or.inl rfl, h2⟩
      · exact Or.inr ⟨h1, mm, Or.inr hmm, hy⟩
    · rintro (h | ⟨h1, mm, (rfl | hmm), hy⟩)
      · exact Or.inl (Or.inl h)
      · exact Or.inl (Or.inr ⟨h1, hy⟩)
      · exact Or.inr ⟨h1, mm, hmm, hy⟩

theorem mem_filterExcludedModules (selectedModules : List Module) (m : Module) :
    m ∈ filterExcludedModules selectedModules
      ↔ m ∈ selectedModules ∧ ∀ m' ∈ selectedModules, m.name ∉ m'.excludes := by
  simp only [filterExcludedModules, List.mem_filter, decide_eq_true_eq]
  constructor
  · rintro ⟨hm, hnot⟩
    refine ⟨hm, fun m' hm' hex => hnot ?_⟩
    rw [mem_collectExcludedNames]
    exact ⟨List.mem_map.mpr ⟨m, hm, rfl⟩, m', hm', hex⟩
  · rintro ⟨hm, hall⟩
    refine ⟨hm, fun hcol => ?_⟩
    rw [mem_collectExcludedNames] at hcol
    obtain ⟨-, m', hm', hex⟩ := hcol
    exact hall m' hm' hex

/-- C3 (corrected): the conflict-filtering pass removes exactly those
modules whose name appears in the excludes list of some module of the
set — including the module's own list, so a self-excluding module is
removed (which contradicts the claim's final clause); mutual exclusion
removes both modules, and excluding a name not carried by any member of
the set changes nothing. -/
theorem c3_filterExcluded_characterization (selectedModules : List Module) :
    (∀ m, m ∈ filterExcludedModules selectedModules
        ↔ m ∈ selectedModules ∧ ∀ m' ∈ selectedModules, m.name ∉ m'.excludes)
    ∧ ((∀ m ∈ selectedModules, ∀ ex ∈ m.excludes,
          ex ∉ selectedModules.map (fun x => x.name)) →
        filterExcludedModules selectedModules = selectedModules) := by
  constructor
  · exact fun m => mem_filterExcludedModules selectedModules m
  · intro hno
    simp only [filterExcludedModules]
    rw [List.filter_eq_self]
    intro m hm
    simp only [decide_eq_true_eq]
    intro hcol
    rw [mem_collectExcludedNames] at hcol
    obtain ⟨hnames, m', hm', hex⟩ := hcol
    exact hno m' hm' m.name hex hnames

/-- Witness for C3 at the mutual-exclusion pair: with `A excludes B` and
`B excludes A` both selected, module `A` is removed (and symmetrically
`B`), matching the claim's mutual-exclusion clause. -/
theorem c3_filterExcluded_characterization_witness :
    mutexA ∉ filterExcludedModules [mutexA, mutexB] := fun h =>
  (((c3_filterExcluded_characterization [mutexA, mutexB]).1 mutexA).mp h).2 mutexB
    (by decide) (by decide)

/-- Counterexample to C3 as stated: a module whose `excludes` lists its
own name is removed by the pass even though only its own exclusion list
names it, contradicting the clause that the excluding module itself is
never removed by its own exclusion list. -/
theorem c3_counterexample_self_exclusion :
    filterExcludedModules [selfExcludingModule] = [] := by decide

theorem filter_orderedInsert (x : Module) (l : List Module) (p : Int) :
    (l.orderedInsert modPriorityGE x).filter (fun m => decide (effPriority m = p))
      = if effPriority x = p
        then x :: l.filter (fun m => decide (effPriority m = p))
        else l.filter (fun m => decide (effPriority m = p)) := by
  induction l with
  | nil =>
    by_cases hx : effPriority x = p <;> simp [List.orderedInsert, hx]
  | cons b t ih =>
    simp only [List.orderedInsert]
    by_cases hr : modPriorityGE x b
    · rw [if_pos hr]
      by_cases hx : effPriority x = p <;> simp [hx, List.filter_cons]
    · rw [if_neg hr]
      have hgt : effPriority x < effPriority b := by
        simpa [modPriorityGE, not_le] using hr
      by_cases hb : effPriority b = p
      · have hx : ¬ effPriority x = p := by
          intro h; rw [h, hb] at hgt; exact lt_irrefl p hgt
        simp [List.filter_cons, hb, ih, hx]
      · by_cases hx : effPriority x = p <;> simp [List.filter_cons, hb, ih, hx]

/-- C8: `sortModulesByPriority` orders by effective priority
(`priority ?? 0`) descending, permutes its input, and is stable: for
every priority value, the modules carrying it appear in exactly their
input order (their filtered subsequence is unchanged). -/
theorem c8_sort_sorted_and_stable (modules : List Module) :
    List.Sorted modPriorityGE (sortModulesByPriority modules)
    ∧ (sortModulesByPriority modules).Perm modules
    ∧ ∀ p : Int,
        (sortModulesByPriority modules).filter (fun m => decide (effPriority m = p))
          = modules.filter (fun m => decide (effPriority m = p)) := by
  refine ⟨List.sorted_insertionSort _ _, List.perm_insertionSort _ _, ?_⟩
  intro p
  induction modules with
  | nil => rfl
  | cons a t ih =>
    simp only [sortModulesByPriority, List.insertionSort] at *
    rw [filter_orderedInsert]
    by_cases hx : effPriority a = p <;> simp [hx, List.filter_cons, ih]

theorem insertPropScan_nil (name np : List Char) : insertPropScan name np [] = [] := by
  simp [insertPropScan]

theorem insertPropScan_skip (name np : List Char) (s t : List Char) (h : '<' ∉ s) :
    insertPropScan name np (s ++ t) = s ++ insertPropScan name np t := by
  induction s with
  | nil => simp
  | cons c s' ih =>
    have hc : ¬ (c = '<') := by
      intro hch
      exact h (by simp [hch])
    have h' : '<' ∉ s' := fun hm => h (List.mem_cons_of_mem c hm)
    rw [List.cons_append]
    simp only [insertPropScan]
    rw [dif_neg (by rintro ⟨hch, -⟩; exact hc hch)]
    rw [ih h', List.cons_append]

theorem takeWhile_ne_gt_append (props t : List Char) (h : '>' ∉ props) :
    (props ++ '>' :: t).takeWhile neGt = props := by
  induction props with
  | nil => simp [List.takeWhile_cons, neGt]
  | cons c cs ih =>
    have hc : c ≠ '>' := fun hch => h (by simp [hch])
    have h' : '>' ∉ cs := fun hm => h (List.mem_cons_of_mem c hm)
    have hg : neGt c = true := by simp [neGt, hc]
    simp [List.takeWhile_cons, hg, ih h']

theorem drop_past_gt (props t : List Char) :
    List.drop (props.length + 1) (props ++ '>' :: t) = t := by
  have h1 : props ++ '>' :: t = (props ++ ['>']) ++ t := by simp
  have h2 : props.length + 1 = (props ++ ['>']).length := by simp
  rw [h1, h2, List.drop_left]

theorem insertPropScan_match (name props np t : List Char) (h : '>' ∉ props) :
    insertPropScan name np ('<' :: (name ++ props ++ '>' :: t))
      = insertPropTagRewrite name props np ++ insertPropScan name np t := by
  have hpre : name.isPrefixOf (name ++ props ++ '>' :: t) = true := by
    rw [List.isPrefixOf_iff_prefix, List.append_assoc]
    exact List.prefix_append name (props ++ '>' :: t)
  have hdrop : List.drop name.length (name ++ props ++ '>' :: t) = props ++ '>' :: t := by
    rw [List.append_assoc]
    exact List.drop_left name (props ++ '>' :: t)
  have hmem : '>' ∈ List.drop name.length (name ++ props ++ '>' :: t) := by
    rw [hdrop]
    exact List.mem_append_right props (List.mem_cons_self '>' t)
  simp only [insertPropScan]
  split
  · simp only [hdrop, takeWhile_ne_gt_append props t h, drop_past_gt props t]
  · rename_i hneg
    exfalso
    apply hneg
    simp [hpre, hmem]

/-- C2 (corrected): the `INSERT_PROP` regex carries the global flag, so
the attribute is injected into every opening tag matching
`<componentName ...>`, not only the first: a content made of two matching
tags separated by tag-free text has both tags rewritten in place. -/
theorem c2_insertProp_rewrites_every_matching_tag
    (name props1 props2 s1 s2 s3 np : List Char)
    (h1 : '<' ∉ s1) (h2 : '<' ∉ s2) (h3 : '<' ∉ s3)
    (hp1 : '>' ∉ props1) (hp2 : '>' ∉ props2) :
    insertPropScan name np
        (s1 ++ '<' :: (name ++ props1 ++ '>' ::
          (s2 ++ '<' :: (name ++ props2 ++ '>' :: s3))))
      = s1 ++ insertPropTagRewrite name props1 np
          ++ (s2 ++ insertPropTagRewrite name props2 np ++ s3) := by
  have hnil : insertPropScan name np [] = [] := insertPropScan_nil name np
  have hs3 : insertPropScan name np s3 = s3 := by
    have hx := insertPropScan_skip name np s3 [] h3
    simpa [hnil] using hx
  rw [insertPropScan_skip name np s1 _ h1]
  rw [insertPropScan_match name props1 np _ hp1]
  rw [insertPropScan_skip name np s2 _ h2]
  rw [insertPropScan_match name props2 np _ hp2]
  rw [hs3]
  simp [List.append_assoc]

/-- Witness for C2 (amended form) at concrete content
`<A>x<A>y` with component `A` and prop `p`: both tags are rewritten. -/
theorem c2_insertProp_rewrites_every_matching_tag_witness :
    insertPropScan "A".data "p".data
        ("".data ++ '<' :: ("A".data ++ [] ++ '>' ::
          ("x".data ++ '<' :: ("A".data ++ [] ++ '>' :: "y".data))))
      = "".data ++ insertPropTagRewrite "A".data [] "p".data
          ++ ("x".data ++ insertPropTagRewrite "A".data [] "p".data ++ "y".data) :=
  c2_insertProp_rewrites_every_matching_tag "A".data [] [] "".data "x".data "y".data
    "p".data (by decide) (by decide) (by decide) (by decide) (by decide)

/-- Counterexample to C2 as stated: on the content `<A><A>` the second
matching tag is also rewritten — the result is `<A p><A p>`, not the
`<A p><A>` the only-first-match claim predicts. -/
theorem c2_counterexample_second_tag_rewritten :
    insertPropScan "A".data "p".data "<A><A>".data = "<A p><A p>".data
    ∧ insertPropScan "A".data "p".data "<A><A>".data ≠ "<A p><A>".data := by
  have hnil : insertPropScan "A".data "p".data [] = [] :=
    insertPropScan_nil "A".data "p".data
  have key : insertPropScan "A".data "p".data "<A><A>".data = "<A p><A p>".data := by
    have e : "<A><A>".data
        = '<' :: ("A".data ++ [] ++ '>' :: ('<' :: ("A".data ++ [] ++ '>' :: []))) := by
      decide
    rw [e]
    rw [insertPropScan_match "A".data [] "p".data
      ('<' :: ("A".data ++ [] ++ '>' :: [])) (by decide)]
    rw [insertPropScan_match "A".data [] "p".data [] (by decide)]
    rw [hnil]
    decide
  refine ⟨key, ?_⟩
  rw [key]
  decide

theorem lookupModule_foldl_mem (name : String) :
    ∀ (catalog : List Module) (acc : Option Module) (m : Module),
      catalog.foldl (fun acc mm => if mm.name = name then some mm else acc) acc = some m →
      m ∈ catalog ∨ acc = some m := by
  intro catalog
  induction catalog with
  | nil => intro acc m ha; exact Or.inr ha
  | cons c rest ih =>
    intro acc m ha
    rw [List.foldl_cons] at ha
    rcases ih _ m ha with hm | hc
    · exact Or.inl (List.mem_cons_of_mem c hm)
    · by_cases hn : c.name = name
      · rw [if_pos hn] at hc
        left
        rw [← Option.some.inj hc]
        exact List.mem_cons_self c rest
      · rw [if_neg hn] at hc
        exact Or.inr hc

theorem lookupModule_mem (catalog : List Module) (name : String) (m : Module)
    (h : lookupModule catalog name = some m) : m ∈ catalog := by
  rcases lookupModule_foldl_mem name catalog none m h with hm | hc
  · exact hm
  · cases hc

theorem addIncludesAux_mono (catalog : List Module) :
    ∀ (fuel : Nat) (names : List String) (final : List Module) (x : Module),
      x ∈ final → x ∈ addIncludesAux catalog fuel final names := by
  intro fuel
  induction fuel using Nat.strong_induction_on with
  | _ fuel ihf =>
    intro names
    induction names with
    | nil =>
      intro final x hx
      cases fuel <;> simpa [addIncludesAux] using hx
    | cons name rest ihn =>
      intro final x hx
      cases fuel with
      | zero => simpa [addIncludesAux] using hx
      | succ f =>
        simp only [addIncludesAux]
        cases hl : lookupModule catalog name with
        | none => exact ihn final x hx
        | some inc =>
          dsimp only
          by_cases hm : inc ∈ final
          · rw [if_pos hm]
            exact ihn final x hx
          · rw [if_neg hm]
            exact ihn _ x
              (ihf f (Nat.lt_succ_self f) inc.includes (final ++ [inc]) x
                (List.mem_append_left _ hx))

theorem addIncludesAux_elems (catalog : List Module) :
    ∀ (fuel : Nat) (names : List String) (final : List Module) (x : Module),
      x ∈ addIncludesAux catalog fuel final names → x ∈ final ∨ x ∈ catalog := by
  intro fuel
  induction fuel using Nat.strong_induction_on with
  | _ fuel ihf =>
    intro names
    induction names with
    | nil =>
      intro final x hx
      cases fuel <;> simp [addIncludesAux] at hx <;> exact Or.inl hx
    | cons name rest ihn =>
      intro final x hx
      cases fuel with
      | zero => simp [addIncludesAux] at hx; exact Or.inl hx
      | succ f =>
        simp only [addIncludesAux] at hx
        cases hl : lookupModule catalog name with
        | none =>
          rw [hl] at hx
          exact ihn final x hx
        | some inc =>
          rw [hl] at hx
          dsimp only at hx
          by_cases hm : inc ∈ final
          · rw [if_pos hm] at hx
            exact ihn final x hx
          · rw [if_neg hm] at hx
            rcases ihn _ x hx with hmid | hcat
            · rcases ihf f (Nat.lt_succ_self f) inc.includes (final ++ [inc]) x hmid
                with hfi | hcat2
              · rcases List.mem_append.mp hfi with hf2 | hinc
                · exact Or.inl hf2
                · rw [List.mem_singleton.mp hinc]
                  exact Or.inr (lookupModule_mem catalog name inc hl)
              · exact Or.inr hcat2
            · exact Or.inr hcat

theorem addIncludesAux_nodup (catalog : List Module) :
    ∀ (fuel : Nat) (names : List String) (final : List Module),
      final.Nodup → (addIncludesAux catalog fuel final names).Nodup := by
  intro fuel
  induction fuel using Nat.strong_induction_on with
  | _ fuel ihf =>
    intro names
    induction names with
    | nil =>
      intro final h
      cases fuel <;> simpa [addIncludesAux] using h
    | cons name rest ihn =>
      intro final h
      cases fuel with
      | zero => simpa [addIncludesAux] using h
      | succ f =>
        simp only [addIncludesAux]
        cases hl : lookupModule catalog name with
        | none => exact ihn final h
        | some inc =>
          dsimp only
          by_cases hm : inc ∈ final
          · rw [if_pos hm]
            exact ihn final h
          · rw [if_neg hm]
            apply ihn
            apply ihf f (Nat.lt_succ_self f)
            rw [List.nodup_append]
            exact ⟨h, List.nodup_singleton inc,
              fun a ha hb => hm ((List.mem_singleton.mp hb) ▸ ha)⟩

theorem length_filter_not_mem_le (catalog : List Module) (s t : List Module)
    (hst : ∀ x ∈ s, x ∈ t) :
    (catalog.filter (notMem t)).length ≤ (catalog.filter (notMem s)).length := by
  induction catalog with
  | nil => simp
  | cons c rest ih =>
    simp only [List.filter_cons]
    by_cases hct : c ∈ t
    · have h1 : notMem t c = false := by simp [notMem, hct]
      by_cases hcs : c ∈ s
      · have h2 : notMem s c = false := by simp [notMem, hcs]
        simp only [h1, h2, Bool.false_eq_true, if_false]
        exact ih
      · have h2 : notMem s c = true := by simp [notMem, hcs]
        simp only [h1, h2, Bool.false_eq_true, if_false, if_true, List.length_cons]
        omega
    · have hcs : c ∉ s := fun hx => hct (hst c hx)
      have h1 : notMem t c = true := by simp [notMem, hct]
      have h2 : notMem s c = true := by simp [notMem, hcs]
      simp only [h1, h2, if_true, List.length_cons]
      omega

theorem length_filter_not_mem_lt (catalog : List Module) (final : List Module) (inc : Module)
    (hin : inc ∈ catalog) (hnot : inc ∉ final) :
    (catalog.filter (notMem (final ++ [inc]))).length
      < (catalog.filter (notMem final)).length := by
  induction catalog with
  | nil => cases hin
  | cons c rest ih =>
    simp only [List.filter_cons]
    by_cases hceq : c = inc
    · subst hceq
      have h1 : notMem (final ++ [c]) c = false := by simp [notMem]
      have h2 : notMem final c = true := by simp [notMem, hnot]
      have hle := length_filter_not_mem_le rest final (final ++ [c])
        (fun x hx => List.mem_append_left _ hx)
      simp only [h1, h2, Bool.false_eq_true, if_false, if_true, List.length_cons]
      omega
    · have hin' : inc ∈ rest :=
        (List.mem_cons.mp hin).resolve_left (fun hh => hceq hh.symm)
      by_cases hcf : c ∈ final
      · have h1 : notMem (final ++ [inc]) c = false := by
          simp [notMem, List.mem_append, hcf]
        have h2 : notMem final c = false := by simp [notMem, hcf]
        simp only [h1, h2, Bool.false_eq_true, if_false]
        exact ih hin'
      · have h1 : notMem (final ++ [inc]) c = true := by
          simp [notMem, List.mem_append, hcf, hceq]
        have h2 : notMem final c = true := by simp [notMem, hcf]
        simp only [h1, h2, if_true, List.length_cons]
        have := ih hin'
        omega

theorem addIncludesAux_subset_closed (catalog : List Module) (S : Module → Prop)
    (hS : IncludeClosed catalog S) :
    ∀ (fuel : Nat) (names : List String) (final : List Module),
      (∀ x ∈ final, S x) →
      (∀ nm ∈ names, ∀ inc, lookupModule catalog nm = some inc → S inc) →
      ∀ x ∈ addIncludesAux catalog fuel final names, S x := by
  intro fuel
  induction fuel using Nat.strong_induction_on with
  | _ fuel ihf =>
    intro names
    induction names with
    | nil =>
      intro final hfin _ x hx
      cases fuel <;> simp [addIncludesAux] at hx <;> exact hfin x hx
    | cons name rest ihn =>
      intro final hfin hnames x hx
      cases fuel with
      | zero => simp [addIncludesAux] at hx; exact hfin x hx
      | succ f =>
        simp only [addIncludesAux] at hx
        cases hl : lookupModule catalog name with
        | none =>
          rw [hl] at hx
          exact ihn final hfin (fun nm hnm => hnames nm (List.mem_cons_of_mem name hnm)) x hx
        | some inc =>
          rw [hl] at hx
          dsimp only at hx
          by_cases hm : inc ∈ final
          · rw [if_pos hm] at hx
            exact ihn final hfin (fun nm hnm => hnames nm (List.mem_cons_of_mem name hnm)) x hx
          · rw [if_neg hm] at hx
            have hSinc : S inc := hnames name (List.mem_cons_self name rest) inc hl
            have hmid : ∀ y ∈ addIncludesAux catalog f (final ++ [inc]) inc.includes, S y := by
              apply ihf f (Nat.lt_succ_self f) inc.includes (final ++ [inc])
              · intro y hy
                rcases List.mem_append.mp hy with hy1 | hy2
                · exact hfin y hy1
                · rw [List.mem_singleton.mp hy2]
                  exact hSinc
              · intro nm hnm inc' hl'
                exact hS inc hSinc nm hnm inc' hl'
            exact ihn _ hmid (fun nm hnm => hnames nm (List.mem_cons_of_mem name hnm)) x hx

theorem addIncludesAux_complete (catalog : List Module) :
    ∀ (fuel : Nat) (names : List String) (final : List Module),
      (catalog.filter (notMem final)).length < fuel →
      (∀ nm ∈ names, ∀ inc, lookupModule catalog nm = some inc →
          inc ∈ addIncludesAux catalog fuel final names)
      ∧ (∀ x ∈ addIncludesAux catalog fuel final names, x ∉ final →
          ∀ nm ∈ x.includes, ∀ inc, lookupModule catalog nm = some inc →
            inc ∈ addIncludesAux catalog fuel final names) := by
  intro fuel
  induction fuel using Nat.strong_induction_on with
  | _ fuel ihf =>
    intro names
    induction names with
    | nil =>
      intro final hfuel
      cases fuel with
      | zero => exact absurd hfuel (Nat.not_lt_zero _)
      | succ f =>
        constructor
        · intro nm hnm
          cases hnm
        · intro x hx hxf
          simp [addIncludesAux] at hx
          exact absurd hx hxf
    | cons name rest ihn =>
      intro final hfuel
      cases fuel with
      | zero => exact absurd hfuel (Nat.not_lt_zero _)
      | succ f =>
        simp only [addIncludesAux]
        cases hl : lookupModule catalog name with
        | none =>
          dsimp only
          obtain ⟨ha, hb⟩ := ihn final hfuel
          constructor
          · intro nm hnm inc hl'
            rcases List.mem_cons.mp hnm with rfl | hr
            · rw [hl] at hl'
              cases hl'
            · exact ha nm hr inc hl'
          · exact hb
        | some inc =>
          dsimp only
          by_cases hm : inc ∈ final
          · rw [if_pos hm]
            obtain ⟨ha, hb⟩ := ihn final hfuel
            constructor
            · intro nm hnm inc' hl'
              rcases List.mem_cons.mp hnm with rfl | hr
              · rw [hl] at hl'
                rw [← Option.some.inj hl']
                exact addIncludesAux_mono catalog (f + 1) rest final inc hm
              · exact ha nm hr inc' hl'
            · exact hb
          · rw [if_neg hm]
            have hinc_cat : inc ∈ catalog := lookupModule_mem catalog name inc hl
            have hstrict := length_filter_not_mem_lt catalog final inc hinc_cat hm
            have hfuel_inner :
                (catalog.filter (notMem (final ++ [inc]))).length < f := by
              omega
            obtain ⟨ia, ib⟩ :=
              ihf f (Nat.lt_succ_self f) inc.includes (final ++ [inc]) hfuel_inner
            have hmono_mid : ∀ y ∈ final ++ [inc],
                y ∈ addIncludesAux catalog f (final ++ [inc]) inc.includes :=
              fun y hy => addIncludesAux_mono catalog f inc.includes (final ++ [inc]) y hy
            have hfuel_outer :
                (catalog.filter
                  (notMem (addIncludesAux catalog f (final ++ [inc]) inc.includes))).length
                  < f + 1 := by
              have hle := length_filter_not_mem_le catalog (final ++ [inc])
                (addIncludesAux catalog f (final ++ [inc]) inc.includes) hmono_mid
              omega
            obtain ⟨oa, ob⟩ := ihn _ hfuel_outer
            have hmono_R : ∀ y ∈ addIncludesAux catalog f (final ++ [inc]) inc.includes,
                y ∈ addIncludesAux catalog (f + 1)
                  (addIncludesAux catalog f (final ++ [inc]) inc.includes) rest :=
              fun y hy => addIncludesAux_mono catalog (f + 1) rest _ y hy
            constructor
            · intro nm hnm inc' hl'
              rcases List.mem_cons.mp hnm with rfl | hr
              · rw [hl] at hl'
                rw [← Option.some.inj hl']
                exact hmono_R inc
                  (hmono_mid inc (List.mem_append_right _ (List.mem_singleton_self inc)))
              · exact oa nm hr inc' hl'
            · intro x hx hxf nm hnm inc' hl'
              by_cases hxmid : x ∈ addIncludesAux catalog f (final ++ [inc]) inc.includes
              · by_cases hxfi : x ∈ final ++ [inc]
                · rcases List.mem_append.mp hxfi with hxf2 | hxinc
                  · exact absurd hxf2 hxf
                  · rw [List.mem_singleton.mp hxinc] at hnm
                    exact hmono_R inc' (ia nm hnm inc' hl')
                · exact hmono_R inc' (ib x hxmid hxfi nm hnm inc' hl')
              · exact ob x hx hxmid nm hnm inc' hl'

theorem mem_dedup_foldl {α : Type} [DecidableEq α] (l : List α) :
    ∀ (acc : List α) (y : α),
      (y ∈ l.foldl (fun acc m => if m ∈ acc then acc else acc ++ [m]) acc)
        ↔ y ∈ acc ∨ y ∈ l := by
  induction l with
  | nil => intro acc y; simp
  | cons m rest ih =>
    intro acc y
    rw [List.foldl_cons, ih, mem_if_push]
    simp only [List.mem_cons]
    tauto

theorem nodup_dedup_foldl {α : Type} [DecidableEq α] (l : List α) :
    ∀ acc : List α, acc.Nodup →
      (l.foldl (fun acc m => if m ∈ acc then acc else acc ++ [m]) acc).Nodup := by
  induction l with
  | nil => intro acc h; simpa using h
  | cons m rest ih =>
    intro acc h
    rw [List.foldl_cons]
    apply ih
    by_cases hm : m ∈ acc
    · simpa [hm] using h
    · rw [if_neg hm, List.nodup_append]
      exact ⟨h, List.nodup_singleton m,
        fun a ha hb => hm ((List.mem_singleton.mp hb) ▸ ha)⟩

theorem foldl_expand_mono (catalog : List Module) (l : List Module) :
    ∀ (final : List Module) (x : Module), x ∈ final →
      x ∈ l.foldl
        (fun final m => addIncludesAux catalog (catalog.length + 1) final m.includes)
        final := by
  induction l with
  | nil => intro final x hx; simpa using hx
  | cons m rest ih =>
    intro final x hx
    rw [List.foldl_cons]
    exact ih _ x (addIncludesAux_mono catalog _ m.includes final x hx)

theorem foldl_expand_elems (catalog : List Module) (l : List Module) :
    ∀ (final : List Module) (x : Module),
      x ∈ l.foldl
        (fun final m => addIncludesAux catalog (catalog.length + 1) final m.includes)
        final
      → x ∈ final ∨ x ∈ catalog := by
  induction l with
  | nil => intro final x hx; exact Or.inl (by simpa using hx)
  | cons m rest ih =>
    intro final x hx
    rw [List.foldl_cons] at hx
    rcases ih _ x hx with hmid | hcat
    · exact addIncludesAux_elems catalog _ m.includes final x hmid
    · exact Or.inr hcat

theorem foldl_expand_nodup (catalog : List Module) (l : List Module) :
    ∀ final : List Module, final.Nodup →
      (l.foldl
        (fun final m => addIncludesAux catalog (catalog.length + 1) final m.includes)
        final).Nodup := by
  induction l with
  | nil => intro final h; simpa using h
  | cons m rest ih =>
    intro final h
    rw [List.foldl_cons]
    exact ih _ (addIncludesAux_nodup catalog _ m.includes final h)

theorem filter_notMem_lt_fuel (catalog : List Module) (final : List Module) :
    (catalog.filter (notMem final)).length < catalog.length + 1 := by
  have := List.length_filter_le (notMem final) catalog
  omega

theorem foldl_expand_closed (catalog : List Module) (l : List Module) :
    ∀ final : List Module,
      (∀ x ∈ final, ProcessedAt catalog final x ∨ x ∈ l) →
      ∀ x ∈ l.foldl
        (fun final m => addIncludesAux catalog (catalog.length + 1) final m.includes)
        final,
        ProcessedAt catalog
          (l.foldl
            (fun final m => addIncludesAux catalog (catalog.length + 1) final m.includes)
            final) x := by
  induction l with
  | nil =>
    intro final h x hx
    simp only [List.foldl_nil] at hx ⊢
    rcases h x hx with hp | hl
    · exact hp
    · cases hl
  | cons m rest ih =>
    intro final h
    rw [List.foldl_cons]
    apply ih
    intro x hx
    obtain ⟨ca, cb⟩ := addIncludesAux_complete catalog (catalog.length + 1) m.includes final
      (filter_notMem_lt_fuel catalog final)
    by_cases hxf : x ∈ final
    · rcases h x hxf with hp | hml
      · left
        intro nm hnm inc hl'
        exact addIncludesAux_mono catalog _ m.includes final inc (hp nm hnm inc hl')
      · rcases List.mem_cons.mp hml with rfl | htail
        · left
          intro nm hnm inc hl'
          exact ca nm hnm inc hl'
        · right
          exact htail
    · left
      intro nm hnm inc hl'
      exact cb x hx hxf nm hnm inc hl'

theorem foldl_expand_subset_closed (catalog : List Module) (S : Module → Prop)
    (hS : IncludeClosed catalog S) (l : List Module) (hl : ∀ m ∈ l, S m) :
    ∀ final : List Module, (∀ x ∈ final, S x) →
      ∀ x ∈ l.foldl
        (fun final m => addIncludesAux catalog (catalog.length + 1) final m.includes)
        final,
        S x := by
  induction l with
  | nil =>
    intro final hfin x hx
    simp only [List.foldl_nil] at hx
    exact hfin x hx
  | cons m rest ih =>
    intro final hfin x hx
    rw [List.foldl_cons] at hx
    refine ih (fun mm hmm => hl mm (List.mem_cons_of_mem m hmm)) _ ?_ x hx
    intro y hy
    exact addIncludesAux_subset_closed catalog S hS _ m.includes final hfin
      (fun nm hnm inc hl' => hS m (hl m (List.mem_cons_self m rest)) nm hnm inc hl')
      y hy

/-- C5: for every catalog and selection — cyclic `includes` included,
since the visited-set recursion needs fuel bounded by the catalog size —
the include expansion returns a duplicate-free list that contains the
selection, is closed under catalog-resolved include membership, and is
least among all include-closed collections containing the selection. -/
theorem c5_addIncludedModules_least_closure (selectedModules allModules : List Module) :
    (∀ m ∈ selectedModules, m ∈ addIncludedModules selectedModules allModules)
    ∧ IncludeClosed allModules (fun x => x ∈ addIncludedModules selectedModules allModules)
    ∧ (∀ S : Module → Prop, (∀ m ∈ selectedModules, S m) → IncludeClosed allModules S →
        ∀ x ∈ addIncludedModules selectedModules allModules, S x)
    ∧ (addIncludedModules selectedModules allModules).Nodup := by
  simp only [addIncludedModules]
  have hinit_mem : ∀ y : Module,
      (y ∈ selectedModules.foldl (fun acc m => if m ∈ acc then acc else acc ++ [m]) [])
        ↔ y ∈ selectedModules := by
    intro y
    rw [mem_dedup_foldl]
    simp
  refine ⟨?_, ?_, ?_, ?_⟩
  · intro m hm
    exact foldl_expand_mono allModules selectedModules _ m ((hinit_mem m).mpr hm)
  · intro x hx nm hnm inc hl'
    refine foldl_expand_closed allModules selectedModules _ ?_ x hx nm hnm inc hl'
    intro y hy
    exact Or.inr ((hinit_mem y).mp hy)
  · intro S hSsel hSclosed x hx
    refine foldl_expand_subset_closed allModules S hSclosed selectedModules hSsel _ ?_ x hx
    intro y hy
    exact hSsel y ((hinit_mem y).mp hy)
  · exact foldl_expand_nodup allModules selectedModules _
      (nodup_dedup_foldl selectedModules [] List.nodup_nil)

/-- Witness for C5 on a cyclic catalog (`A includes B`, `B includes A`)
with only `A` selected: `B` is in the resolved set, by closedness at the
membership of `A`. -/
theorem c5_addIncludedModules_least_closure_witness :
    cycleB ∈ addIncludedModules [cycleA] [cycleA, cycleB] :=
  (c5_addIncludedModules_least_closure [cycleA] [cycleA, cycleB]).2.1 cycleA
    ((c5_addIncludedModules_least_closure [cycleA] [cycleA, cycleB]).1 cycleA (by decide))
    "B" (by decide) cycleB (by decide)

end Zeck
